import Mathlib

/-!
# Verification of `trivia_game.py`

A shallow embedding of the trivia game (question loader, pydantic-style
validation, and the turn/scoring game loop), with theorems checking the
specification's claims against it.

Python values from the JSON layer are modelled by `PyVal` (strings,
integers, lists, dicts — the fragment the program manipulates).  Python
exceptions that can escape the modelled code are `PyError`.
-/

namespace Trivia

/-- Model of the Python/JSON values the program manipulates. -/
inductive PyVal where
  | str (s : String)
  | int (n : Int)
  | list (xs : List PyVal)
  | dict (kvs : List (String × PyVal))
deriving Repr

/-- Python exceptions that are not caught by the modelled code. -/
inductive PyError where
  | typeError
  | indexError
deriving Repr

/-- Coercion of a `PyVal` to a `str` field, as pydantic v1 does for a
plain `str` annotation: strings are taken as-is and integers are coerced
with `str()`; other shapes fail validation. -/
def PyVal.asStr : PyVal → Option String
  | .str s => some s
  | .int n => some (toString n)
  | _ => none

/-- Coercion of a `PyVal` to a `List[str]` field: the value must be a
list, and each element is coerced like a `str` field. -/
def PyVal.asStrList : PyVal → Option (List String)
  | .list xs => xs.mapM PyVal.asStr
  | _ => none

/-- Model of `class Question(BaseModel)`: the validated record. -/
structure Question where
  question : String
  options : List String
  answer : String
deriving Repr, DecidableEq

/-- Model of `Question.validate_options` (`@validator('options')`).  `values` is
the dict of fields already validated when the `options` field is
processed; pydantic validates fields in declaration order
(`question`, `options`, `answer`), so `values` can contain `question`
but never `answer`. -/
def validate_options (v : List String) (values : List (String × PyVal)) :
    Except String (List String) :=
  if v.length < 2 then
    .error "Must provide at least two options for a question."
  else
    match values.lookup "answer" with
    | some (.str a) =>
        if v.contains a then .ok v
        else .error "The answer must be one of the options."
    | _ => .ok v

/-- Model of `Question(**q)` for a dict `q`: pydantic validates the three declared
fields in declaration order, running `validate_options` on `options` with
`values` holding the fields already validated (only `question` precedes
`options`).  Any field error or validator error yields a
`ValidationError`, modelled as `none`.  Extra keys are ignored
(pydantic v1 default). -/
def mkQuestion (q : List (String × PyVal)) : Option Question :=
  let qv := (q.lookup "question").bind PyVal.asStr
  let ov := (q.lookup "options").bind PyVal.asStrList
  let av := (q.lookup "answer").bind PyVal.asStr
  let values : List (String × PyVal) :=
    match qv with
    | some s => [("question", PyVal.str s)]
    | none => []
  match qv, ov, av with
  | some qs, some os, some ans =>
      match validate_options os values with
      | .ok os2 => some { question := qs, options := os2, answer := ans }
      | .error _ => none
  | _, _, _ => none

/-- Console messages the loader prints. -/
inductive Msg where
  | problemWithQuestion (entry : List (String × PyVal))
  | fileNotFound
  | invalidJson
deriving Repr

/-- What opening and JSON-decoding the input file can yield: the file is
missing (`FileNotFoundError`), its text is not valid JSON
(`json.JSONDecodeError`), or it decodes to some JSON document. -/
inductive LoadSource where
  | fileNotFound
  | notJson
  | doc (v : PyVal)
deriving Repr

/-- Model of `for q in data`: Python iteration over the decoded document.
Lists yield their elements, dicts yield their keys, strings yield their
characters (as 1-character strings); integers are not iterable and raise
`TypeError`. -/
def iterEntries : PyVal → Except PyError (List PyVal)
  | .list xs => .ok xs
  | .dict kvs => .ok (kvs.map (fun kv => PyVal.str kv.1))
  | .str s => .ok (s.toList.map (fun c => PyVal.str (String.mk [c])))
  | .int _ => .error .typeError

/-- One iteration of the loader's inner loop on entry `q`:
`Question(**q)` requires `q` to be a mapping, otherwise Python raises
`TypeError` (only `ValidationError` is caught).  For a dict, a
`ValidationError` is caught and reported; success appends the question. -/
def loadEntry : PyVal → Except PyError (Option Question × List Msg)
  | .dict kvs =>
      match mkQuestion kvs with
      | some q => .ok (some q, [])
      | none => .ok (none, [.problemWithQuestion kvs])
  | _ => .error .typeError

/-- The loader's inner loop over the decoded entries, accumulating valid
questions and one diagnostic per skipped entry; an uncaught exception
aborts the whole loader. -/
def loadEntries : List PyVal → Except PyError (List Question × List Msg)
  | [] => .ok ([], [])
  | e :: es =>
      match loadEntry e with
      | .error err => .error err
      | .ok (q?, m) =>
          match loadEntries es with
          | .error err => .error err
          | .ok (qs, ms) =>
              match q? with
              | some q => .ok (q :: qs, m ++ ms)
              | none => .ok (qs, m ++ ms)

/-- Model of `load_questions_from_file`: returns the loaded questions and the
messages printed, or the Python exception that escapes the loader. -/
def load_questions_from_file (src : LoadSource) :
    Except PyError (List Question × List Msg) :=
  match src with
  | .fileNotFound => .ok ([], [.fileNotFound])
  | .notJson => .ok ([], [.invalidJson])
  | .doc v =>
      match iterEntries v with
      | .error err => .error err
      | .ok entries => loadEntries entries

/-- Model of `class Player`: name and mutable score. -/
structure Player where
  name : String
  score : Nat
deriving Repr, DecidableEq

/-- Model of `Player.increase_score`. -/
def Player.increase_score (p : Player) : Player :=
  { p with score := p.score + 1 }

/-- The mutable state of `TriviaGame.play`: the instance attributes
`questions` and `current_question_index`, the shared `Player` objects,
and the loop-local `current_player_index`. -/
structure State where
  questions : List Question
  players : List Player
  current_question_index : Nat
  current_player_index : Nat
deriving Repr, DecidableEq

/-- What `int(input(...))` yields for one line of console input: either
`ValueError` (the line is not an integer literal) or the parsed integer. -/
inductive RawInput where
  | notInt
  | int (n : Int)
deriving Repr, DecidableEq

/-- The external nondeterminism consumed by one loop iteration: the
option order produced by `shuffle_options` (a permutation of the current
question's options, recorded as the resulting list) and the console
line read by `input`. -/
structure Event where
  opts : List String
  raw : RawInput
deriving Repr, DecidableEq

/-- How one loop iteration ended: `invalid` covers both the `ValueError`
branch and the out-of-range branch (both `continue`); `noQuestion` is the
`question is None` break. -/
inductive TurnResult where
  | invalid
  | correct
  | incorrect
  | noQuestion
deriving Repr, DecidableEq

/-- One iteration of the `while` loop in `TriviaGame.play`, given the
event (shuffled option order and input line) for this iteration.
`self.players[current_player_index]` raises `IndexError` when the index
is out of range (in particular with zero players). -/
def step (s : State) (ev : Event) : Except PyError (State × TurnResult) :=
  match s.players.get? s.current_player_index with
  | none => .error .indexError
  | some current_player =>
    match s.questions.get? s.current_question_index with
    | none => .ok (s, .noQuestion)
    | some q0 =>
      let q := { q0 with options := ev.opts }
      let s1 := { s with questions := s.questions.set s.current_question_index q }
      match ev.raw with
      | .notInt => .ok (s1, .invalid)
      | .int n =>
        let answer_index : Int := n - 1
        if answer_index < 0 ∨ (q.options.length : Int) ≤ answer_index then
          .ok (s1, .invalid)
        else
          let selected_answer := q.options.getD answer_index.toNat ""
          if selected_answer = q.answer then
            .ok ({ s1 with
                     players := s1.players.set s.current_player_index
                       current_player.increase_score,
                     current_player_index :=
                       (s.current_player_index + 1) % s.players.length,
                     current_question_index := s.current_question_index + 1 },
                 .correct)
          else
            .ok ({ s1 with
                     current_player_index :=
                       (s.current_player_index + 1) % s.players.length },
                 .incorrect)

/-- The `while` loop of `TriviaGame.play`, driven by a finite list of
events (one per iteration); returns the state when the loop exits (or
when the event list runs dry with the game still in progress) together
with the number of correctly answered turns.  An uncaught exception
aborts the run. -/
def run : State → List Event → Except PyError (State × Nat)
  | s, [] => .ok (s, 0)
  | s, ev :: rest =>
    if s.current_question_index < s.questions.length then
      match step s ev with
      | .error e => .error e
      | .ok (s1, r) =>
          if r = TurnResult.noQuestion then .ok (s1, 0)
          else
            match run s1 rest with
            | .error e => .error e
            | .ok (s2, c) =>
                .ok (s2, (if r = TurnResult.correct then 1 else 0) + c)
    else .ok (s, 0)

/-- The game is over: the loop guard `current_question_index <
len(questions)` fails. -/
def State.finished (s : State) : Prop :=
  s.questions.length ≤ s.current_question_index

instance (s : State) : Decidable s.finished := by
  unfold State.finished; infer_instance

/-- Model of `max(self.players, key=lambda p: p.score)`: Python `max` keeps the
first element whose key is strictly greater than the current best, so it
returns the first player attaining the maximum score; it raises on an
empty sequence (modelled as `none`). -/
def pyMax : List Player → Option Player
  | [] => none
  | p :: rest =>
      some (rest.foldl (fun best x => if best.score < x.score then x else best) p)

/-- The comparison step inside `pyMax`, named for the proofs: keep the
current best unless the next player's key is strictly greater. -/
def pyMaxStep (best x : Player) : Player :=
  if best.score < x.score then x else best

theorem pyMax_eq_foldl (p : Player) (rest : List Player) :
    pyMax (p :: rest) = some (rest.foldl pyMaxStep p) := rfl

/-- The final scoreboard printed after the loop: one `(name, score)` pair
per player, iterating `self.players` in order. -/
def scoreboard (s : State) : List (String × Nat) :=
  s.players.map (fun p => (p.name, p.score))

/-- The players `main` constructs: `Player 1`, ..., `Player n`, each with
score 0. -/
def mkPlayers (n : Nat) : List Player :=
  (List.range n).map (fun i => { name := "Player " ++ toString (i + 1), score := 0 })

/-- The game state at the top of the loop in `TriviaGame.play`, for the
engine `main` constructs: `n` fresh players, both indices 0, and the
question list as left by the initial `shuffle_questions`. -/
def initState (shuffled : List Question) (n : Nat) : State :=
  { questions := shuffled, players := mkPlayers n,
    current_question_index := 0, current_player_index := 0 }

/-- What `main` does after `load_questions_from_file` returns. -/
inductive MainOutcome where
  | noQuestions
  | ranGame (result : Except PyError (State × Nat))

/-- Model of `main`, after the questions are loaded: if the list is empty it
prints `No valid questions found in the file.` and returns; otherwise it
constructs the players and the `TriviaGame` and calls `play`.  `play`
first shuffles the questions (`shuffled` is the permutation chosen by
`random.shuffle`) and then enters the loop. -/
def main (questions : List Question) (num_players : Nat)
    (shuffled : List Question) (evs : List Event) : MainOutcome :=
  if questions.isEmpty then .noQuestions
  else .ranGame (run (initState shuffled num_players) evs)

/-- The question an individual raw entry contributes when the loader
processes it without an exception: `none` when it is skipped. -/
def entryQuestion : PyVal → Option Question
  | .dict kvs => mkQuestion kvs
  | _ => none

/-! ## Loader claims -/

/-- A sample malformed entry: its `answer` (`"c"`) is not among its
`options` (`["a", "b"]`). -/
def badAnswerEntry : List (String × PyVal) :=
  [("question", PyVal.str "q"),
   ("options", PyVal.list [PyVal.str "a", PyVal.str "b"]),
   ("answer", PyVal.str "c")]

/-- C1: the claim says an entry whose `answer` is not a member of its
`options` is rejected with a diagnostic.  The code loads it with no
diagnostic: pydantic validates fields in declaration order, so when
`validate_options` runs, `answer` is not yet in `values` and the
membership check `values['answer'] not in v` is dead code. -/
theorem c1_missing_answer_entry_loaded :
    load_questions_from_file (LoadSource.doc (PyVal.list [PyVal.dict badAnswerEntry])) =
      .ok ([{ question := "q", options := ["a", "b"], answer := "c" }], []) := rfl

/-- C3: the claim says no input ever makes the loader raise.  A document
that is valid JSON but not an array (here the number 42) raises
`TypeError` at `for q in data`, which the loader does not catch. -/
theorem c3_nonarray_doc_raises :
    load_questions_from_file (LoadSource.doc (PyVal.int 42)) =
      .error PyError.typeError := rfl

theorem loadEntries_all_dicts (entries : List PyVal)
    (h : ∀ e ∈ entries, ∃ kvs, e = PyVal.dict kvs) :
    ∃ msgs, loadEntries entries = .ok (entries.filterMap entryQuestion, msgs) := by
  induction entries with
  | nil => exact ⟨[], rfl⟩
  | cons e es ih =>
      obtain ⟨kvs, rfl⟩ := h e (List.mem_cons_self e es)
      obtain ⟨msgs, hes⟩ := ih (fun x hx => h x (List.mem_cons_of_mem _ hx))
      cases hq : mkQuestion kvs with
      | some q =>
          refine ⟨msgs, ?_⟩
          simp [loadEntries, loadEntry, hq, hes, entryQuestion, List.filterMap_cons]
      | none =>
          refine ⟨Msg.problemWithQuestion kvs :: msgs, ?_⟩
          simp [loadEntries, loadEntry, hq, hes, entryQuestion, List.filterMap_cons]

/-- C10: for a well-formed input array (every element a JSON object),
the loaded questions are exactly the per-entry results in source order
(`List.filterMap` keeps relative order), so skipping an invalid entry
never reorders the entries around it. -/
theorem c10_loader_preserves_order (entries : List PyVal)
    (h : ∀ e ∈ entries, ∃ kvs, e = PyVal.dict kvs) :
    ∃ msgs, load_questions_from_file (LoadSource.doc (PyVal.list entries)) =
      .ok (entries.filterMap entryQuestion, msgs) := by
  obtain ⟨msgs, hm⟩ := loadEntries_all_dicts entries h
  exact ⟨msgs, by simp [load_questions_from_file, iterEntries, hm]⟩

/-- A sample entry with fewer than two options. -/
def shortOptionsEntry : List (String × PyVal) :=
  [("question", PyVal.str "one"),
   ("options", PyVal.list [PyVal.str "a"]),
   ("answer", PyVal.str "a")]

/-- A sample well-formed entry. -/
def goodEntry : List (String × PyVal) :=
  [("question", PyVal.str "2+2?"),
   ("options", PyVal.list [PyVal.str "3", PyVal.str "4"]),
   ("answer", PyVal.str "4")]

theorem c10_loader_preserves_order_witness :
    ∃ msgs, load_questions_from_file (LoadSource.doc (PyVal.list
        [PyVal.dict goodEntry, PyVal.dict shortOptionsEntry, PyVal.dict badAnswerEntry])) =
      .ok ([PyVal.dict goodEntry, PyVal.dict shortOptionsEntry,
            PyVal.dict badAnswerEntry].filterMap entryQuestion, msgs) :=
  c10_loader_preserves_order
    [PyVal.dict goodEntry, PyVal.dict shortOptionsEntry, PyVal.dict badAnswerEntry]
    (by intro e he; fin_cases he <;> exact ⟨_, rfl⟩)

/-! ## Engine claims -/

/-- The question of the spec's concrete scenarios. -/
def q42 : Question := { question := "2+2?", options := ["3", "4"], answer := "4" }

/-- C2: the claim says a 0-player configuration is rejected before the
engine is constructed.  `main` performs no such check: with one valid
question and `num_players = 0` it constructs the engine and calls
`play`, which raises `IndexError` at `self.players[current_player_index]`
on the first iteration. -/
theorem c2_zero_players_not_rejected :
    main [q42] 0 [q42] [{ opts := ["3", "4"], raw := RawInput.int 1 }] =
      MainOutcome.ranGame (.error PyError.indexError) := rfl

/-! ## Engine helper lemmas -/

/-- Total score of a list of players. -/
def sumScores (ps : List Player) : Nat :=
  (ps.map Player.score).sum

theorem sumScores_cons (p : Player) (ps : List Player) :
    sumScores (p :: ps) = p.score + sumScores ps := by
  simp [sumScores]

theorem sumScores_set_increase (ps : List Player) (i : Nat) (p : Player)
    (h : ps.get? i = some p) :
    sumScores (ps.set i p.increase_score) = sumScores ps + 1 := by
  induction ps generalizing i with
  | nil => simp at h
  | cons x xs ih =>
      cases i with
      | zero =>
          simp only [List.get?] at h
          cases h
          simp [List.set, sumScores_cons, Player.increase_score]
          omega
      | succ j =>
          simp only [List.get?] at h
          have := ih j h
          simp [List.set, sumScores_cons]
          omega

theorem map_name_set_increase (ps : List Player) (i : Nat) (p : Player)
    (h : ps.get? i = some p) :
    (ps.set i p.increase_score).map Player.name = ps.map Player.name := by
  induction ps generalizing i with
  | nil => simp at h
  | cons x xs ih =>
      cases i with
      | zero =>
          simp only [List.get?] at h
          cases h
          simp [List.set, Player.increase_score]
      | succ j =>
          simp only [List.get?] at h
          simp [List.set, ih j h]

/-- Everything one loop iteration preserves or changes by a bounded
amount: list lengths, player names, and how the question index and the
total score move together with the turn's result. -/
theorem step_spec (s : State) (ev : Event) (s1 : State) (r : TurnResult)
    (h : step s ev = .ok (s1, r)) :
    s1.questions.length = s.questions.length ∧
    s1.players.length = s.players.length ∧
    s1.players.map Player.name = s.players.map Player.name ∧
    s1.current_question_index =
      s.current_question_index + (if r = TurnResult.correct then 1 else 0) ∧
    sumScores s1.players =
      sumScores s.players + (if r = TurnResult.correct then 1 else 0) := by
  unfold step at h
  split at h
  · exact absurd h (by simp)
  · rename_i p hp
    split at h
    · cases h
      exact ⟨rfl, rfl, rfl, by simp, by simp⟩
    · rename_i q0 hq
      split at h
      · cases h
        exact ⟨by simp, rfl, rfl, by simp, by simp⟩
      · dsimp only at h
        split at h
        · cases h
          exact ⟨by simp, rfl, rfl, by simp, by simp⟩
        · split at h
          · cases h
            refine ⟨by simp, by simp, ?_, by simp, ?_⟩
            · exact map_name_set_increase s.players s.current_player_index p hp
            · simp [sumScores_set_increase s.players s.current_player_index p hp]
          · cases h
            exact ⟨by simp, rfl, rfl, by simp, by simp⟩

/-- Run-level version of `step_spec`: over a whole run, lengths and
names are preserved, the question index advances by exactly the number
of correct answers, and so does the total score. -/
theorem run_spec (evs : List Event) (s s2 : State) (c : Nat)
    (h : run s evs = .ok (s2, c)) :
    s2.questions.length = s.questions.length ∧
    s2.players.length = s.players.length ∧
    s2.players.map Player.name = s.players.map Player.name ∧
    s2.current_question_index = s.current_question_index + c ∧
    sumScores s2.players = sumScores s.players + c := by
  induction evs generalizing s c with
  | nil =>
      unfold run at h
      cases h
      exact ⟨rfl, rfl, rfl, by simp, by simp⟩
  | cons ev rest ih =>
      unfold run at h
      split at h
      · split at h
        · exact absurd h (by simp)
        · rename_i s1 r hstep
          obtain ⟨hq1, hp1, hn1, hc1, hs1⟩ := step_spec s ev s1 r hstep
          split at h
          · cases h
            rename_i hnoq
            subst hnoq
            simp at hc1 hs1
            exact ⟨hq1, hp1, hn1, by omega, by omega⟩
          · split at h
            · exact absurd h (by simp)
            · rename_i s2x cx hrun
              cases h
              obtain ⟨hq2, hp2, hn2, hc2, hs2⟩ := ih s1 cx hrun
              refine ⟨hq2.trans hq1, hp2.trans hp1, hn2.trans hn1, ?_, ?_⟩ <;> omega
      · cases h
        exact ⟨rfl, rfl, rfl, by simp, by simp⟩

/-- The question index never exceeds the number of questions: the loop
body runs only under the guard, and one step advances the index by at
most one. -/
theorem run_cqi_le (evs : List Event) (s s2 : State) (c : Nat)
    (h : run s evs = .ok (s2, c))
    (hle : s.current_question_index ≤ s.questions.length) :
    s2.current_question_index ≤ s2.questions.length := by
  induction evs generalizing s c with
  | nil =>
      unfold run at h
      cases h
      exact hle
  | cons ev rest ih =>
      unfold run at h
      split at h
      · rename_i hguard
        split at h
        · exact absurd h (by simp)
        · rename_i s1 r hstep
          obtain ⟨hq1, hp1, hn1, hc1, hs1⟩ := step_spec s ev s1 r hstep
          split at h
          · rename_i hnoq
            cases h
            subst hnoq
            simp at hc1
            omega
          · split at h
            · exact absurd h (by simp)
            · rename_i s2x cx hrun
              cases h
              exact ih s1 cx hrun (by split at hc1 <;> omega)
      · cases h
        exact hle

theorem sumScores_mkPlayers (n : Nat) : sumScores (mkPlayers n) = 0 := by
  unfold sumScores
  apply List.sum_eq_zero
  intro x hx
  simp [mkPlayers] at hx
  omega

/-- C6: for every finished game started from the state `main`
constructs, the players' scores sum to the number of questions: the sum
and the question index both advance by exactly one per correct answer,
both start at 0, and the index ends at the question count. -/
theorem c6_final_scores_sum (shuffled : List Question) (n : Nat)
    (evs : List Event) (s1 : State) (c : Nat)
    (h : run (initState shuffled n) evs = .ok (s1, c))
    (hfin : s1.finished) :
    sumScores s1.players = shuffled.length := by
  obtain ⟨hq, hp, hn, hc, hs⟩ := run_spec evs _ s1 c h
  have h0 : sumScores (mkPlayers n) = 0 := sumScores_mkPlayers n
  have hle := run_cqi_le evs _ s1 c h (by simp [initState])
  unfold State.finished at hfin
  simp only [initState] at hq hc hs
  omega

/-- The spec's concrete scenario A, one correct answer by Player 1:
the option shuffle presented `["4", "3"]` and the input line was `1`. -/
def evA : Event := { opts := ["4", "3"], raw := RawInput.int 1 }

/-- The final state of scenario A. -/
def sA : State :=
  { questions := [{ question := "2+2?", options := ["4", "3"], answer := "4" }],
    players := [{ name := "Player 1", score := 1 }, { name := "Player 2", score := 0 }],
    current_question_index := 1, current_player_index := 1 }

theorem c6_final_scores_sum_witness :
    run (initState [q42] 2) [evA] = .ok (sA, 1) ∧ sA.finished ∧
      sumScores sA.players = [q42].length := by
  have h : run (initState [q42] 2) [evA] = .ok (sA, 1) := rfl
  exact ⟨h, by decide, c6_final_scores_sum [q42] 2 [evA] sA 1 h (by decide)⟩

/-- C8: from the state `main` constructs, the question index always
equals the number of correctly answered turns so far (each question is
consumed exactly once, on the turn it is answered correctly), and the
loop has terminated exactly when that count has reached the number of
questions. -/
theorem c8_terminates_at_correct_count (shuffled : List Question) (n : Nat)
    (evs : List Event) (s1 : State) (c : Nat)
    (h : run (initState shuffled n) evs = .ok (s1, c)) :
    s1.current_question_index = c ∧ (s1.finished ↔ c = shuffled.length) := by
  obtain ⟨hq, hp, hn, hc, hs⟩ := run_spec evs _ s1 c h
  have hle := run_cqi_le evs _ s1 c h (by simp [initState])
  simp only [initState] at hq hc
  unfold State.finished
  omega

/-- Scenario B, first event: Player 1 picks option 1 (`"3"`), wrong. -/
def evB1 : Event := { opts := ["3", "4"], raw := RawInput.int 1 }

/-- Scenario B, second event: Player 2 picks option 1 (`"4"`), right. -/
def evB2 : Event := { opts := ["4", "3"], raw := RawInput.int 1 }

/-- The final state of scenario B. -/
def sB : State :=
  { questions := [{ question := "2+2?", options := ["4", "3"], answer := "4" }],
    players := [{ name := "Player 1", score := 0 }, { name := "Player 2", score := 1 }],
    current_question_index := 1, current_player_index := 0 }

theorem c8_terminates_at_correct_count_witness :
    run (initState [q42] 2) [evB1, evB2] = .ok (sB, 1) ∧
      sB.current_question_index = 1 ∧ (sB.finished ↔ 1 = [q42].length) := by
  have h : run (initState [q42] 2) [evB1, evB2] = .ok (sB, 1) := rfl
  exact ⟨h, c8_terminates_at_correct_count [q42] 2 [evB1, evB2] sB 1 h⟩

/-- C9: the question index stays in `[0, len(questions)]` (the lower
bound is inherent in the `Nat` embedding), and once it has reached
`len(questions)` the game is over: the loop takes no further turn and
presents no further question, leaving the state untouched. -/
theorem c9_question_index_bounds (s : State) (evs : List Event) :
    (∀ s1 c, run s evs = .ok (s1, c) →
        s.current_question_index ≤ s.questions.length →
        s1.current_question_index ≤ s1.questions.length) ∧
    (s.finished → run s evs = .ok (s, 0)) := by
  constructor
  · intro s1 c h hle
    exact run_cqi_le evs s s1 c h hle
  · intro hfin
    unfold State.finished at hfin
    cases evs with
    | nil => rfl
    | cons ev rest =>
        unfold run
        rw [if_neg (by omega)]

theorem c9_question_index_bounds_witness :
    run sA [evA] = .ok (sA, 0) ∧
      sA.current_question_index ≤ sA.questions.length := by
  have h := (c9_question_index_bounds sA [evA]).2 (by decide)
  exact ⟨h, (c9_question_index_bounds sA [evA]).1 sA 0 h (by decide)⟩

/-- C4: on a parseable 1-based selection `n` with `1 ≤ n ≤ number of
options` (the shuffled options of this presentation): if the selected
option differs from the correct answer the question index is unchanged
and the player index advances by exactly one modulo the player count;
if it matches, the current player's score increases by exactly 1
(`increase_score`) and both indices advance. -/
theorem c4_answer_transition (s : State) (opts : List String) (n : Int)
    (p : Player) (q0 : Question)
    (hp : s.players.get? s.current_player_index = some p)
    (hq : s.questions.get? s.current_question_index = some q0)
    (hlo : 1 ≤ n) (hhi : n ≤ (opts.length : Int)) :
    ∃ s1 r, step s { opts := opts, raw := RawInput.int n } = .ok (s1, r) ∧
      s1.current_player_index = (s.current_player_index + 1) % s.players.length ∧
      (opts.getD (n - 1).toNat "" = q0.answer →
        r = TurnResult.correct ∧
        s1.current_question_index = s.current_question_index + 1 ∧
        s1.players = s.players.set s.current_player_index p.increase_score ∧
        s1.players.get? s.current_player_index = some p.increase_score) ∧
      (opts.getD (n - 1).toNat "" ≠ q0.answer →
        r = TurnResult.incorrect ∧
        s1.current_question_index = s.current_question_index ∧
        s1.players = s.players) := by
  have hplt : s.current_player_index < s.players.length :=
    (List.get?_eq_some.mp hp).1
  by_cases hsel : opts.getD (n - 1).toNat "" = q0.answer
  · have hstep : step s { opts := opts, raw := RawInput.int n } = .ok
        ({ questions := s.questions.set s.current_question_index
              ({ q0 with options := opts }),
           players := s.players.set s.current_player_index p.increase_score,
           current_question_index := s.current_question_index + 1,
           current_player_index := (s.current_player_index + 1) % s.players.length },
         TurnResult.correct) := by
      unfold step
      rw [hp, hq]
      dsimp only
      rw [if_neg (by omega), if_pos hsel]
    refine ⟨_, _, hstep, rfl, fun _ => ⟨rfl, rfl, rfl, ?_⟩, fun hne => absurd hsel hne⟩
    exact List.get?_set_eq_of_lt _ hplt
  · have hstep : step s { opts := opts, raw := RawInput.int n } = .ok
        ({ questions := s.questions.set s.current_question_index
              ({ q0 with options := opts }),
           players := s.players,
           current_question_index := s.current_question_index,
           current_player_index := (s.current_player_index + 1) % s.players.length },
         TurnResult.incorrect) := by
      unfold step
      rw [hp, hq]
      dsimp only
      rw [if_neg (by omega), if_neg hsel]
    exact ⟨_, _, hstep, rfl, fun hyes => absurd hyes hsel, fun _ => ⟨rfl, rfl, rfl⟩⟩

theorem c4_answer_transition_witness :
    ∃ s1 r, step (initState [q42] 2) { opts := ["3", "4"], raw := RawInput.int 1 } =
        .ok (s1, r) ∧
      s1.current_player_index =
        ((initState [q42] 2).current_player_index + 1) %
          (initState [q42] 2).players.length ∧
      (["3", "4"].getD ((1 : Int) - 1).toNat "" = q42.answer →
        r = TurnResult.correct ∧
        s1.current_question_index = (initState [q42] 2).current_question_index + 1 ∧
        s1.players = (initState [q42] 2).players.set
          (initState [q42] 2).current_player_index
          (Player.increase_score { name := "Player 1", score := 0 }) ∧
        s1.players.get? (initState [q42] 2).current_player_index =
          some (Player.increase_score { name := "Player 1", score := 0 })) ∧
      (["3", "4"].getD ((1 : Int) - 1).toNat "" ≠ q42.answer →
        r = TurnResult.incorrect ∧
        s1.current_question_index = (initState [q42] 2).current_question_index ∧
        s1.players = (initState [q42] 2).players) :=
  c4_answer_transition (initState [q42] 2) ["3", "4"] 1
    { name := "Player 1", score := 0 } q42 rfl rfl (by decide) (by decide)

/-- The turn's input is rejected by the loop: either `int()` raises
`ValueError`, or the 0-based index falls outside `[0, numOptions)`. -/
def Event.isInvalidInput : Event → Prop
  | ⟨_, .notInt⟩ => True
  | ⟨opts, .int n⟩ => n - 1 < 0 ∨ (opts.length : Int) ≤ n - 1

instance (ev : Event) : Decidable ev.isInvalidInput := by
  obtain ⟨opts, raw⟩ := ev
  cases raw <;> unfold Event.isInvalidInput <;> infer_instance

/-- The state after `shuffle_options` has permuted the current
question's options in place, leaving `opts` as their new order. -/
def shuffleCurrent (s : State) (opts : List String) (q0 : Question) : State :=
  { s with questions :=
      s.questions.set s.current_question_index ({ q0 with options := opts }) }

theorem step_invalid (s : State) (ev : Event) (p : Player) (q0 : Question)
    (hp : s.players.get? s.current_player_index = some p)
    (hq : s.questions.get? s.current_question_index = some q0)
    (hinv : ev.isInvalidInput) :
    step s ev = .ok (shuffleCurrent s ev.opts q0, TurnResult.invalid) := by
  obtain ⟨opts, raw⟩ := ev
  cases raw with
  | notInt =>
      unfold step
      rw [hp, hq]
      rfl
  | int n =>
      unfold Event.isInvalidInput at hinv
      unfold step
      rw [hp, hq]
      dsimp only
      rw [if_pos hinv]
      rfl

theorem run_invalid (evs : List Event) (s : State)
    (hp : s.current_player_index < s.players.length)
    (hinv : ∀ ev ∈ evs, ev.isInvalidInput) :
    ∃ s1, run s evs = .ok (s1, 0) ∧
      s1.current_player_index = s.current_player_index ∧
      s1.current_question_index = s.current_question_index ∧
      s1.players = s.players := by
  induction evs generalizing s with
  | nil => exact ⟨s, rfl, rfl, rfl, rfl⟩
  | cons ev rest ih =>
      by_cases hg : s.current_question_index < s.questions.length
      · have hp' := List.get?_eq_get hp
        have hq' := List.get?_eq_get hg
        have hstep := step_invalid s ev _ _ hp' hq'
          (hinv ev (List.mem_cons_self ev rest))
        obtain ⟨s2, hrun, h1, h2, h3⟩ := ih
          (shuffleCurrent s ev.opts (s.questions.get ⟨s.current_question_index, hg⟩))
          hp (fun x hx => hinv x (List.mem_cons_of_mem _ hx))
        refine ⟨s2, ?_, h1, h2, h3⟩
        unfold run
        rw [if_pos hg, hstep]
        dsimp only
        rw [hrun]
        rw [if_neg (show ¬(TurnResult.invalid = TurnResult.noQuestion) by decide)]
        rfl
      · unfold run
        rw [if_neg hg]
        exact ⟨s, rfl, rfl, rfl, rfl⟩

/-- C5: when the entered line does not parse as an integer or the
0-based index is out of range, the turn reports invalid input
(`TurnResult.invalid`) and repeats for the same player and question:
player index, question index and all players (hence all scores) are
unchanged, and this holds across any number of consecutive invalid
inputs (the only state change is the in-place reshuffle of the current
question's options, which precedes the input prompt). -/
theorem c5_invalid_input_repeats_turn (s : State) (p : Player) (q0 : Question)
    (hp : s.players.get? s.current_player_index = some p)
    (hq : s.questions.get? s.current_question_index = some q0) :
    (∀ ev : Event, ev.isInvalidInput →
        step s ev = .ok (shuffleCurrent s ev.opts q0, TurnResult.invalid)) ∧
    (∀ evs : List Event, (∀ ev ∈ evs, ev.isInvalidInput) →
        ∃ s1, run s evs = .ok (s1, 0) ∧
          s1.current_player_index = s.current_player_index ∧
          s1.current_question_index = s.current_question_index ∧
          s1.players = s.players) := by
  refine ⟨fun ev hinv => step_invalid s ev p q0 hp hq hinv, fun evs hinv => ?_⟩
  exact run_invalid evs s (List.get?_eq_some.mp hp).1 hinv

theorem c5_invalid_input_repeats_turn_witness :
    ∃ s1, run (initState [q42] 2)
        [{ opts := ["3", "4"], raw := RawInput.notInt },
         { opts := ["4", "3"], raw := RawInput.int 5 },
         { opts := ["3", "4"], raw := RawInput.int 0 }] = .ok (s1, 0) ∧
      s1.current_player_index = (initState [q42] 2).current_player_index ∧
      s1.current_question_index = (initState [q42] 2).current_question_index ∧
      s1.players = (initState [q42] 2).players :=
  (c5_invalid_input_repeats_turn (initState [q42] 2)
      { name := "Player 1", score := 0 } q42 rfl rfl).2
    [{ opts := ["3", "4"], raw := RawInput.notInt },
     { opts := ["4", "3"], raw := RawInput.int 5 },
     { opts := ["3", "4"], raw := RawInput.int 0 }]
    (by intro ev he; fin_cases he <;> decide)

/-- Python's `max` with a key, as a left fold that replaces the best
element only on a strictly greater key, returns the first element
attaining the maximum: everything is bounded by the result, the result
occurs at some index, and everything strictly before that index is
strictly below it. -/
theorem foldl_pyMaxStep_spec (rest : List Player) : ∀ p : Player,
    (∀ y ∈ p :: rest, y.score ≤ (rest.foldl pyMaxStep p).score) ∧
    ∃ i, (p :: rest).get? i = some (rest.foldl pyMaxStep p) ∧
      ∀ j, j < i → ∀ y, (p :: rest).get? j = some y →
        y.score < (rest.foldl pyMaxStep p).score := by
  induction rest with
  | nil =>
      intro p
      refine ⟨?_, 0, rfl, ?_⟩
      · intro y hy
        simp at hy
        subst hy
        exact le_refl _
      · intro j hj
        omega
  | cons x rest ih =>
      intro p
      by_cases hpx : p.score < x.score
      · have hfold : (x :: rest).foldl pyMaxStep p = rest.foldl pyMaxStep x := by
          simp [List.foldl, pyMaxStep, if_pos hpx]
        obtain ⟨hmem, i, hi, hfirst⟩ := ih x
        rw [hfold]
        have hxw : x.score ≤ (rest.foldl pyMaxStep x).score :=
          hmem x (List.mem_cons_self x rest)
        refine ⟨?_, i + 1, hi, ?_⟩
        · intro y hy
          rcases List.mem_cons.mp hy with rfl | hy2
          · omega
          · exact hmem y hy2
        · intro j hj y hy
          cases j with
          | zero =>
              simp only [List.get?] at hy
              cases hy
              omega
          | succ k =>
              exact hfirst k (by omega) y hy
      · have hfold : (x :: rest).foldl pyMaxStep p = rest.foldl pyMaxStep p := by
          simp [List.foldl, pyMaxStep, if_neg hpx]
        obtain ⟨hmem, i, hi, hfirst⟩ := ih p
        rw [hfold]
        have hpw : p.score ≤ (rest.foldl pyMaxStep p).score :=
          hmem p (List.mem_cons_self p rest)
        have hmemnew : ∀ y ∈ p :: x :: rest,
            y.score ≤ (rest.foldl pyMaxStep p).score := by
          intro y hy
          rcases List.mem_cons.mp hy with rfl | hy2
          · exact hpw
          · rcases List.mem_cons.mp hy2 with rfl | hy3
            · omega
            · exact hmem y (List.mem_cons_of_mem p hy3)
        cases i with
        | zero =>
            simp only [List.get?] at hi
            refine ⟨hmemnew, 0, hi, ?_⟩
            intro j hj
            omega
        | succ k =>
            have hplt : p.score < (rest.foldl pyMaxStep p).score :=
              hfirst 0 (by omega) p rfl
            simp only [List.get?] at hi
            refine ⟨hmemnew, k + 2, hi, ?_⟩
            intro j hj y hy
            cases j with
            | zero =>
                simp only [List.get?] at hy
                cases hy
                exact hplt
            | succ m =>
                cases m with
                | zero =>
                    simp only [List.get?] at hy
                    cases hy
                    omega
                | succ l =>
                    simp only [List.get?] at hy
                    exact hfirst (l + 1) (by omega) y hy

/-- C7: after any run from the state `main` constructs (with at least
one player), the scoreboard lists the players in their original order
(names unchanged and in construction order), and the winner computed by
`max(self.players, key=lambda p: p.score)` is a player of maximum score
— the first such player in player order when several tie. -/
theorem c7_winner_first_max (shuffled : List Question) (n : Nat)
    (evs : List Event) (s1 : State) (c : Nat) (hn : 0 < n)
    (h : run (initState shuffled n) evs = .ok (s1, c)) :
    (scoreboard s1).map Prod.fst = (mkPlayers n).map Player.name ∧
    ∃ w, pyMax s1.players = some w ∧
      (∀ p ∈ s1.players, p.score ≤ w.score) ∧
      ∃ i, s1.players.get? i = some w ∧
        ∀ j, j < i → ∀ y, s1.players.get? j = some y → y.score < w.score := by
  obtain ⟨hq, hp, hnm, hc, hs⟩ := run_spec evs _ s1 c h
  constructor
  · have hsb : (scoreboard s1).map Prod.fst = s1.players.map Player.name := by
      simp [scoreboard, List.map_map, Function.comp]
    rw [hsb, hnm]
    simp [initState]
  · cases hps : s1.players with
    | nil =>
        exfalso
        rw [hps] at hp
        simp [initState, mkPlayers] at hp
        omega
    | cons p rest =>
        obtain ⟨hmem, i, hi, hfirst⟩ := foldl_pyMaxStep_spec rest p
        exact ⟨rest.foldl pyMaxStep p, pyMax_eq_foldl p rest, hmem, i, hi, hfirst⟩

theorem c7_winner_first_max_witness :
    (scoreboard sB).map Prod.fst = (mkPlayers 2).map Player.name ∧
    ∃ w, pyMax sB.players = some w ∧
      (∀ p ∈ sB.players, p.score ≤ w.score) ∧
      ∃ i, sB.players.get? i = some w ∧
        ∀ j, j < i → ∀ y, sB.players.get? j = some y → y.score < w.score :=
  c7_winner_first_max [q42] 2 [evB1, evB2] sB 1 (by decide) rfl

end Trivia
